import Mathlib

/-!
Verification of the phpBB3 password-hash checker (`phpbb-pwhash`).

The development shallowly embeds `src/lib.rs`:

* Rust `&str` values are modelled as their UTF-8 byte sequences (`List Nat`,
  each element < 256); `str::len` is the byte length, byte-slicing
  `&s[a..b]` is modelled together with its char-boundary panic condition,
  and `str::chars` is modelled by a UTF-8 decoder producing the list of
  Unicode scalar values.
* The external `base64` crate's `decode_config(_, base64::CRYPT)` is
  modelled group-wise over the crypt alphabet (standard big-endian base64
  bit layout, no padding character, rejecting a lone trailing symbol and
  nonzero trailing bits).  Error payloads (offending index/byte) are
  collapsed to bare constructors; no claim depends on them.
* The external `md5::compute` digest is a black box per the spec, so all
  verifier definitions are parametrised by an arbitrary
  `digest : List Nat → List Nat`.
* A Rust panic is modelled as an explicit `panicked` outcome, distinct from
  every returned value.
-/

set_option maxRecDepth 16384

namespace PhpbbPwhash

/-- `base64::DecodeError` of the base64 crate, payloads collapsed. -/
inductive DecodeError
  | InvalidByte
  | InvalidLength
  | InvalidLastSymbol
deriving DecidableEq

instance {ε α : Type} [DecidableEq ε] [DecidableEq α] : DecidableEq (Except ε α) :=
  fun a b =>
    match a, b with
    | .ok x, .ok y =>
      match decEq x y with
      | isTrue h => isTrue (congrArg Except.ok h)
      | isFalse h => isFalse (fun hh => h (Except.ok.inj hh))
    | .error e, .error f =>
      match decEq e f with
      | isTrue h => isTrue (congrArg Except.error h)
      | isFalse h => isFalse (fun hh => h (Except.error.inj hh))
    | .ok _, .error _ => isFalse (fun hh => Except.noConfusion hh)
    | .error _, .ok _ => isFalse (fun hh => Except.noConfusion hh)

/-- The error returned if the encoded hash is invalid (`enum InvalidHash`). -/
inductive InvalidHash
  | BadLength
  | UnsupportedHashType
  | InvalidRounds
  | InvalidBase64 (e : DecodeError)
deriving DecidableEq

/-- The result type returned by `check_hash` (`enum CheckHashResult`). -/
inductive CheckHashResult
  | Valid
  | PasswordTooLong
  | InvalidHash (e : InvalidHash)
  | Invalid
deriving DecidableEq

/-- A parsed encoded phpBB3 hash (`struct PhpbbHash`); the borrowed
`&str` fields are modelled as byte lists. -/
structure PhpbbHash where
  hash_type : List Nat
  rounds : Nat
  salt : List Nat
  hashed : List Nat
deriving DecidableEq

/-- Outcome of `parse_hash`: a Rust panic, an `Err`, or an `Ok`. -/
inductive ParseResult
  | panicked
  | err (e : InvalidHash)
  | ok (h : PhpbbHash)
deriving DecidableEq

/-- Outcome of `check_hash`: a Rust panic or a returned `CheckHashResult`. -/
inductive CheckOutcome
  | panicked
  | ret (r : CheckHashResult)
deriving DecidableEq

/-- The fixed 64-character alphabet
`"./0123456789ABCDEFGHIJKLMNOPQRSTUVWXYZabcdefghijklmnopqrstuvwxyz"`
(`static ALPHABET`), as ASCII byte values. -/
def ALPHABET : List Nat :=
  [46, 47] ++ (List.range 10).map (fun i => 48 + i) ++
    (List.range 26).map (fun i => 65 + i) ++ (List.range 26).map (fun i => 97 + i)

/-- `ALPHABET.find(c)`: byte index of the first occurrence of `c` in a byte
list (all alphabet characters are ASCII, so the byte index is the
character position). -/
def strFind (c : Nat) : List Nat → Option Nat
  | [] => none
  | b :: rest => if b = c then some 0 else (strFind c rest).map (· + 1)

/-- Position of character `c` in `ALPHABET`, if present. -/
def alphaIndex (c : Nat) : Option Nat :=
  strFind c ALPHABET

/-- Character of `ALPHABET` at position `v`. -/
def alphaChar (v : Nat) : Nat :=
  ALPHABET.getD v 0

/-- Whether byte value `b` is a UTF-8 continuation byte (`0x80..0xBF`). -/
def isCont (b : Nat) : Bool :=
  0x80 ≤ b && b < 0xC0

/-- Rust `str::is_char_boundary` on the byte list `s`: index 0 is always a
boundary, an in-range index is a boundary iff its byte is not a
continuation byte, and an out-of-range index is a boundary only when it
equals the length. -/
def isCharBoundary (s : List Nat) (i : Nat) : Bool :=
  if i = 0 then true
  else
    match s.get? i with
    | some b => !isCont b
    | none => i = s.length

/-- Admissible first continuation byte of a three-byte sequence led by `b`
(RFC 3629: `0xE0` excludes overlongs, `0xED` excludes surrogates). -/
def cont2ok (b c1 : Nat) : Bool :=
  if b = 0xE0 then decide (0xA0 ≤ c1) && isCont c1
  else if b = 0xED then isCont c1 && decide (c1 < 0xA0)
  else isCont c1

/-- Admissible first continuation byte of a four-byte sequence led by `b`
(RFC 3629: `0xF0` excludes overlongs, `0xF4` caps at `U+10FFFF`). -/
def cont3ok (b c1 : Nat) : Bool :=
  if b = 0xF0 then decide (0x90 ≤ c1) && isCont c1
  else if b = 0xF4 then isCont c1 && decide (c1 < 0x90)
  else isCont c1

/-- Decode one UTF-8 character from the front of a byte sequence under the
strict (RFC 3629) rules: its Unicode scalar value and the remaining bytes,
or `none` when no valid character starts the sequence. -/
def utf8DecodeOne : List Nat → Option (Nat × List Nat)
  | [] => none
  | b :: rest =>
    if b < 0x80 then some (b, rest)
    else if b < 0xC2 then none
    else if b < 0xE0 then
      match rest with
      | c1 :: r =>
        if isCont c1 then some ((b - 0xC0) * 0x40 + (c1 - 0x80), r) else none
      | [] => none
    else if b < 0xF0 then
      match rest with
      | c1 :: c2 :: r =>
        if cont2ok b c1 && isCont c2 then
          some ((b - 0xE0) * 0x1000 + (c1 - 0x80) * 0x40 + (c2 - 0x80), r)
        else none
      | _ => none
    else if b < 0xF5 then
      match rest with
      | c1 :: c2 :: c3 :: r =>
        if cont3ok b c1 && isCont c2 && isCont c3 then
          some ((b - 0xF0) * 0x40000 + (c1 - 0x80) * 0x1000 +
            (c2 - 0x80) * 0x40 + (c3 - 0x80), r)
        else none
      | _ => none
    else none

theorem utf8DecodeOne_shrinks :
    ∀ (l : List Nat) (c : Nat) (r : List Nat),
      utf8DecodeOne l = some (c, r) → r.length < l.length := by
  intro l c r h
  rcases l with _ | ⟨b, rest⟩
  · exact absurd h (by simp [utf8DecodeOne])
  · simp only [utf8DecodeOne] at h
    repeat' split at h
    all_goals (try cases h)
    all_goals simp_all
    all_goals omega

/-- Fuelled worker for the UTF-8 decoder; one unit of fuel is spent per
character, so any fuel at least the byte length behaves identically
(`utf8DecodeFuel_congr`). -/
def utf8DecodeFuel : Nat → List Nat → Option (List Nat)
  | _, [] => some []
  | 0, _ :: _ => none
  | fuel + 1, b :: rest =>
    match utf8DecodeOne (b :: rest) with
    | some (c, r) => (utf8DecodeFuel fuel r).map (fun cs => c :: cs)
    | none => none

theorem utf8DecodeFuel_congr :
    ∀ (f g : Nat) (l : List Nat), l.length ≤ f → l.length ≤ g →
      utf8DecodeFuel f l = utf8DecodeFuel g l := by
  intro f
  induction f with
  | zero =>
    intro g l hf _
    rcases l with _ | ⟨b, rest⟩
    · cases g <;> rfl
    · simp at hf
  | succ f ih =>
    intro g l hf hg
    rcases l with _ | ⟨b, rest⟩
    · cases g <;> rfl
    · rcases g with _ | g
      · simp at hg
      · simp only [utf8DecodeFuel]
        cases hone : utf8DecodeOne (b :: rest) with
        | none => rfl
        | some x =>
          obtain ⟨c, r⟩ := x
          have hr := utf8DecodeOne_shrinks (b :: rest) c r hone
          simp only [List.length_cons] at hf hg hr
          show (utf8DecodeFuel f r).map (fun cs => c :: cs) =
            (utf8DecodeFuel g r).map (fun cs => c :: cs)
          rw [ih g r (by omega) (by omega)]

/-- Strict (RFC 3629) UTF-8 decoder: the list of Unicode scalar values of a
byte sequence, or `none` when the bytes are not valid UTF-8.  Models
`str::chars` (a Rust `&str` always holds valid UTF-8). -/
def utf8Decode (l : List Nat) : Option (List Nat) :=
  utf8DecodeFuel l.length l

/-- Whether a byte sequence is valid UTF-8 (every Rust `&str` is). -/
def validUtf8 (s : List Nat) : Bool :=
  (utf8Decode s).isSome

/-- Rust byte-slice `&s[a..b]`. -/
def strSlice (s : List Nat) (a b : Nat) : List Nat :=
  (s.drop a).take (b - a)

/-- `s.chars().nth(3)`: the fourth Unicode scalar value of the string. -/
def fourthChar (s : List Nat) : Option Nat :=
  (utf8Decode s).bind (fun cs => cs.get? 3)

/-- The literal tag `"$H$"` as bytes. -/
def hTag : List Nat := [36, 72, 36]

/-- `parse_hash` from `src/lib.rs`, including the panic behaviour of the
byte-slicing operations `&s[0..3]`, `&s[4..12]`, `&s[12..]` (a slice
panics when an end point is not a char boundary) and of
`.chars().nth(3).unwrap()` (which cannot fire on valid UTF-8 input that
passed the earlier checks). -/
def parse_hash (salted_hash : List Nat) : ParseResult :=
  if salted_hash.length ≠ 34 then .err .BadLength
  else if !(isCharBoundary salted_hash 0 && isCharBoundary salted_hash 3) then
    .panicked
  else if strSlice salted_hash 0 3 ≠ hTag then .err .UnsupportedHashType
  else
    match fourthChar salted_hash with
    | none => .panicked
    | some c =>
      match alphaIndex c with
      | none => .err .InvalidRounds
      | some offset =>
        if offset < 7 || offset > 30 then .err .InvalidRounds
        else if !(isCharBoundary salted_hash 4 && isCharBoundary salted_hash 12)
        then .panicked
        else
          .ok
            { hash_type := strSlice salted_hash 0 3
              rounds := 2 ^ offset
              salt := strSlice salted_hash 4 12
              hashed := strSlice salted_hash 12 salted_hash.length }

/-- Six-bit values of a character sequence under the crypt alphabet;
`none` as soon as a character is outside the alphabet. -/
def sixbits : List Nat → Option (List Nat)
  | [] => some []
  | c :: rest =>
    match alphaIndex c, sixbits rest with
    | some v, some vs => some (v :: vs)
    | _, _ => none

/-- Big-endian base64 regrouping of six-bit values into bytes, as the
base64 crate performs it with padding disabled: full groups of four
symbols yield three bytes; a trailing pair or triple yields one or two
bytes provided the unused low bits of the last symbol are zero
(`InvalidLastSymbol` otherwise); a lone trailing symbol is
`InvalidLength`. -/
def b64regroup : List Nat → Except DecodeError (List Nat)
  | [] => .ok []
  | [_] => .error .InvalidLength
  | [v0, v1] =>
    if v1 % 16 = 0 then .ok [v0 * 4 + v1 / 16] else .error .InvalidLastSymbol
  | [v0, v1, v2] =>
    if v2 % 4 = 0 then .ok [v0 * 4 + v1 / 16, v1 % 16 * 16 + v2 / 4]
    else .error .InvalidLastSymbol
  | v0 :: v1 :: v2 :: v3 :: rest =>
    match b64regroup rest with
    | .ok d => .ok ((v0 * 4 + v1 / 16) :: (v1 % 16 * 16 + v2 / 4) :: (v2 % 4 * 64 + v3) :: d)
    | .error e => .error e

/-- `base64::decode_config(input, base64::CRYPT)`. -/
def b64decode (input : List Nat) : Except DecodeError (List Nat) :=
  match sixbits input with
  | none => .error .InvalidByte
  | some vs => b64regroup vs

/-- `decode64` from `src/lib.rs`: prepend `3 - len % 3` filler characters
`'.'` to the reversed input, decode under the crypt alphabet, then
reverse the decoded bytes and keep the first 16 of them. -/
def decode64 (val : List Nat) : Except DecodeError (List Nat) :=
  (b64decode (List.replicate (3 - val.length % 3) 46 ++ val.reverse)).map
    (fun d => d.reverse.take 16)

/-- The `for _ in 0..rounds` loop of `check_hash`:
`hash = digest(hash_bytes ++ password)` repeated `n` times. -/
def hashLoop (digest : List Nat → List Nat) (password : List Nat) :
    Nat → List Nat → List Nat
  | 0, h => h
  | n + 1, h => hashLoop digest password n (digest (h ++ password))

/-- `check_hash` from `src/lib.rs`, parametrised by the digest primitive
(`md5::compute`, a black box producing 16 bytes). -/
def check_hash (digest : List Nat → List Nat) (salted_hash password : List Nat) :
    CheckOutcome :=
  if password.length > 4096 then .ret .PasswordTooLong
  else
    match parse_hash salted_hash with
    | .panicked => .panicked
    | .err e => .ret (.InvalidHash e)
    | .ok parsed =>
      match decode64 parsed.hashed with
      | .error e => .ret (.InvalidHash (.InvalidBase64 e))
      | .ok decoded_hashed =>
        let hash := hashLoop digest password parsed.rounds
          (digest (parsed.salt ++ password))
        if hash = decoded_hashed then .ret .Valid else .ret .Invalid

/-- Big-endian base64 regrouping of bytes into six-bit symbol values, the
inverse of `b64regroup` on full three-byte groups (partial trailing groups
do not arise: the encoder below always pads to a multiple of three). -/
def b64encode3 : List Nat → List Nat
  | b0 :: b1 :: b2 :: rest =>
    (b0 / 4) :: (b0 % 4 * 16 + b1 / 16) :: (b1 % 16 * 4 + b2 / 64) :: (b2 % 64) ::
      b64encode3 rest
  | _ => []

/-- Modelled from the spec: the repository contains no encoder, but §8
requires "decoding then re-encoding a valid digest field under the custom
alphabet (with the reverse/pad quirk)".  This inverts `decode64`'s quirk:
reverse the bytes, prepend zero bytes until the length is a multiple of
three, encode under the crypt alphabet, drop the padding-derived leading
characters, and reverse the characters. -/
def encode64 (h : List Nat) : List Nat :=
  (((b64encode3 (List.replicate ((3 - h.length % 3) % 3) 0 ++ h.reverse)).drop
    ((3 - h.length % 3) % 3)).reverse).map alphaChar

/-- The decoder exactly as claim C2 words it: pad the reversed field with
`'.'` until the length is a multiple of three, "adding no padding when the
length is already a multiple of 3", decode, discard the padding-derived
leading bytes keeping the final 16 bytes of the decoded output, and
un-reverse them. -/
def decode64_claimed (val : List Nat) : Except DecodeError (List Nat) :=
  (b64decode (List.replicate ((3 - val.length % 3) % 3) 46 ++ val.reverse)).map
    (fun d => (d.drop (d.length - 16)).reverse)

/-- The decoder as the amended claim words it: identical to
`decode64_claimed` except that the number of filler characters is
`3 - len % 3` — i.e. three fillers, not zero, when the length is already a
multiple of three. -/
def decode64_spec (val : List Nat) : Except DecodeError (List Nat) :=
  (b64decode (List.replicate (3 - val.length % 3) 46 ++ val.reverse)).map
    (fun d => (d.drop (d.length - 16)).reverse)

/-- `hashLoop` instrumented with a digest-invocation counter. -/
def hashLoopCounted (digest : List Nat → List Nat) (password : List Nat) :
    Nat → List Nat × Nat → List Nat × Nat
  | 0, st => st
  | n + 1, st => hashLoopCounted digest password n (digest (st.1 ++ password), st.2 + 1)

/-- `check_hash` instrumented with the number of digest-primitive
invocations it performs (the initial salted digest plus one per loop
iteration). -/
def check_hash_counted (digest : List Nat → List Nat)
    (salted_hash password : List Nat) : CheckOutcome × Nat :=
  if password.length > 4096 then (.ret .PasswordTooLong, 0)
  else
    match parse_hash salted_hash with
    | .panicked => (.panicked, 0)
    | .err e => (.ret (.InvalidHash e), 0)
    | .ok parsed =>
      match decode64 parsed.hashed with
      | .error e => (.ret (.InvalidHash (.InvalidBase64 e)), 0)
      | .ok decoded_hashed =>
        let st := hashLoopCounted digest password parsed.rounds
          (digest (parsed.salt ++ password), 1)
        if st.1 = decoded_hashed then (.ret .Valid, st.2) else (.ret .Invalid, st.2)

/-- A stand-in digest primitive (the spec treats the 128-bit digest as a
black box): constantly 16 zero bytes. -/
def digest0 : List Nat → List Nat := fun _ => List.replicate 16 0

/-- The encoded hash `"$H$5........" ++ 22 × '.'`: rounds offset 7
(character `'5'`), salt of eight `'.'`, digest field of 22 `'.'`
(which decodes to 16 zero bytes). -/
def hashOk : List Nat := hTag ++ [53] ++ List.replicate 8 46 ++ List.replicate 22 46

/-- The parse of `hashOk`. -/
def parsedOk : PhpbbHash :=
  { hash_type := hTag
    rounds := 128
    salt := List.replicate 8 46
    hashed := List.replicate 22 46 }

/-- The 34-byte valid-UTF-8 string `"$H\u{e9}"` followed by 30 `'a'`:
byte 3 (`0xA9`) is a UTF-8 continuation byte, so the byte-slice
`&salted_hash[0..3]` in `parse_hash` panics on it. -/
def hashPanic : List Nat := [36, 72, 195, 169] ++ List.replicate 30 97

/-- The encoded hash `"$H$S........" ++ 22 × '.'`: character `'S'` sits at
alphabet offset 30, so parsing yields the maximal `2 ^ 30` rounds. -/
def hashMaxRounds : List Nat := hTag ++ [83] ++ List.replicate 8 46 ++ List.replicate 22 46

/-- A digest field of 22 `'z'` characters (alphabet value 63). -/
def fieldZ : List Nat := List.replicate 22 122

/-- The parse of `hashMaxRounds`. -/
def parsedMax : PhpbbHash :=
  { hash_type := hTag
    rounds := 2 ^ 30
    salt := List.replicate 8 46
    hashed := List.replicate 22 46 }

/-- The encoded hash `"$X$5........" ++ 22 × '.'`: 34 ASCII bytes whose tag
`"$X$"` is not the supported `"$H$"`. -/
def hashX : List Nat := [36, 88, 36, 53] ++ List.replicate 8 46 ++ List.replicate 22 46

/-! ## Helper lemmas -/

theorem strFind_some (c : Nat) :
    ∀ (l : List Nat) (i : Nat), strFind c l = some i → i < l.length ∧ l.getD i 0 = c := by
  intro l
  induction l with
  | nil => intro i h; simp [strFind] at h
  | cons b rest ih =>
    intro i h
    by_cases hb : b = c
    · rw [strFind, if_pos hb] at h
      have hi : i = 0 := (Option.some.inj h).symm
      subst hi
      simpa using hb
    · rw [strFind, if_neg hb, Option.map_eq_some'] at h
      obtain ⟨j, hj, rfl⟩ := h
      obtain ⟨hjl, hjd⟩ := ih j hj
      exact ⟨by simpa using hjl, by simpa using hjd⟩

theorem alphaIndex_spec (c v : Nat) (h : alphaIndex c = some v) :
    v < 64 ∧ alphaChar v = c := by
  obtain ⟨hl, hd⟩ := strFind_some c ALPHABET v h
  refine ⟨?_, hd⟩
  have h64 : ALPHABET.length = 64 := by decide
  omega

theorem alphaIndex_alphaChar : ∀ v < 64, alphaIndex (alphaChar v) = some v := by decide

theorem sixbits_length :
    ∀ (l vs : List Nat), sixbits l = some vs → vs.length = l.length := by
  intro l
  induction l with
  | nil => intro vs h; cases h; rfl
  | cons c rest ih =>
    intro vs h
    simp only [sixbits] at h
    cases hc : alphaIndex c with
    | none => rw [hc] at h; exact absurd h (by simp)
    | some v =>
      rw [hc] at h
      cases hr : sixbits rest with
      | none => rw [hr] at h; exact absurd h (by simp)
      | some ws => rw [hr] at h; cases h; simpa using ih ws hr

theorem sixbits_cons (c : Nat) (l vs : List Nat) (h : sixbits (c :: l) = some vs) :
    ∃ v ws, alphaIndex c = some v ∧ sixbits l = some ws ∧ vs = v :: ws := by
  simp only [sixbits] at h
  cases hc : alphaIndex c with
  | none => rw [hc] at h; exact absurd h (by simp)
  | some v =>
    rw [hc] at h
    cases hr : sixbits l with
    | none => rw [hr] at h; exact absurd h (by simp)
    | some ws => rw [hr] at h; cases h; exact ⟨v, ws, rfl, rfl, rfl⟩

theorem sixbits_lt :
    ∀ (l vs : List Nat), sixbits l = some vs → ∀ v ∈ vs, v < 64 := by
  intro l
  induction l with
  | nil => intro vs h; cases h; simp
  | cons c rest ih =>
    intro vs h
    obtain ⟨v, ws, hc, hr, rfl⟩ := sixbits_cons c rest vs h
    intro u hu
    rcases List.mem_cons.1 hu with rfl | hu
    · exact (alphaIndex_spec c u hc).1
    · exact ih ws hr u hu

theorem sixbits_map_back :
    ∀ (l vs : List Nat), sixbits l = some vs → vs.map alphaChar = l := by
  intro l
  induction l with
  | nil => intro vs h; cases h; rfl
  | cons c rest ih =>
    intro vs h
    obtain ⟨v, ws, hc, hr, rfl⟩ := sixbits_cons c rest vs h
    simp only [List.map_cons, (alphaIndex_spec c v hc).2, ih ws hr]

theorem sixbits_ok :
    ∀ (l : List Nat), (∀ c ∈ l, (alphaIndex c).isSome) → ∃ vs, sixbits l = some vs := by
  intro l
  induction l with
  | nil => intro _; exact ⟨[], rfl⟩
  | cons c rest ih =>
    intro hall
    obtain ⟨ws, hws⟩ := ih (fun u hu => hall u (List.mem_cons_of_mem c hu))
    have hc := hall c (List.mem_cons_self c rest)
    cases hcv : alphaIndex c with
    | none => rw [hcv] at hc; exact absurd hc (by simp)
    | some v => exact ⟨v :: ws, by simp only [sixbits, hcv, hws]⟩

theorem sixbits_append (l₁ l₂ vs₁ vs₂ : List Nat) (h₁ : sixbits l₁ = some vs₁)
    (h₂ : sixbits l₂ = some vs₂) : sixbits (l₁ ++ l₂) = some (vs₁ ++ vs₂) := by
  induction l₁ generalizing vs₁ with
  | nil => cases h₁; simpa using h₂
  | cons c rest ih =>
    obtain ⟨v, ws, hc, hr, rfl⟩ := sixbits_cons c rest vs₁ h₁
    simp only [List.cons_append, sixbits, List.append_eq, hc, ih ws hr]

theorem b64regroup_groups :
    ∀ (k : Nat) (vs : List Nat), vs.length = 4 * k →
      ∃ d, b64regroup vs = .ok d ∧ d.length = 3 * k := by
  intro k
  induction k with
  | zero =>
    intro vs hlen
    rcases vs with _ | ⟨v, vs⟩
    · exact ⟨[], rfl, rfl⟩
    · simp at hlen
  | succ k ih =>
    intro vs hlen
    rcases vs with _ | ⟨v0, _ | ⟨v1, _ | ⟨v2, _ | ⟨v3, rest⟩⟩⟩⟩ <;>
      simp only [List.length_cons, List.length_nil] at hlen <;> try omega
    obtain ⟨d, hd, hdl⟩ := ih rest (by omega)
    have hre : b64regroup (v0 :: v1 :: v2 :: v3 :: rest) =
        .ok ((v0 * 4 + v1 / 16) :: (v1 % 16 * 16 + v2 / 4) :: (v2 % 4 * 64 + v3) :: d) := by
      simp only [b64regroup, hd]
    exact ⟨_, hre, by simp only [List.length_cons, hdl]; omega⟩

theorem b64encode3_regroup :
    ∀ (k : Nat) (vs d : List Nat), vs.length = 4 * k → (∀ v ∈ vs, v < 64) →
      b64regroup vs = .ok d → b64encode3 d = vs := by
  intro k
  induction k with
  | zero =>
    intro vs d hlen _ h
    rcases vs with _ | ⟨v, vs⟩
    · cases h; rfl
    · simp at hlen
  | succ k ih =>
    intro vs d hlen hlt h
    rcases vs with _ | ⟨v0, _ | ⟨v1, _ | ⟨v2, _ | ⟨v3, rest⟩⟩⟩⟩ <;>
      simp only [List.length_cons, List.length_nil] at hlen <;> try omega
    simp only [b64regroup] at h
    cases hr : b64regroup rest with
    | error e => rw [hr] at h; exact absurd h (by simp)
    | ok drest =>
      rw [hr] at h
      cases h
      have hrest : b64encode3 drest = rest :=
        ih rest drest (by omega) (fun v hv => hlt v (by simp [hv])) hr
      have h0 : v0 < 64 := hlt v0 (by simp)
      have h1 : v1 < 64 := hlt v1 (by simp)
      have h2 : v2 < 64 := hlt v2 (by simp)
      have h3 : v3 < 64 := hlt v3 (by simp)
      simp only [b64encode3, hrest, List.cons.injEq]
      refine ⟨by omega, by omega, by omega, by omega, by trivial⟩

theorem utf8Decode_of_one (l : List Nat) (c : Nat) (r : List Nat)
    (h : utf8DecodeOne l = some (c, r)) :
    utf8Decode l = (utf8Decode r).map (fun cs => c :: cs) := by
  rcases l with _ | ⟨b, rest⟩
  · exact absurd h (by simp [utf8DecodeOne])
  · have hr := utf8DecodeOne_shrinks (b :: rest) c r h
    simp only [List.length_cons] at hr
    simp only [utf8Decode, List.length_cons, utf8DecodeFuel, h]
    rw [utf8DecodeFuel_congr rest.length r.length r (by omega) (le_refl r.length)]

theorem utf8Decode_of_none (b : Nat) (rest : List Nat)
    (h : utf8DecodeOne (b :: rest) = none) : utf8Decode (b :: rest) = none := by
  simp only [utf8Decode, List.length_cons, utf8DecodeFuel, h]

theorem utf8DecodeOne_ascii (b : Nat) (l : List Nat) (hb : b < 0x80) :
    utf8DecodeOne (b :: l) = some (b, l) := by
  simp [utf8DecodeOne, hb]

theorem utf8Decode_cons_ascii (b : Nat) (l : List Nat) (hb : b < 0x80) :
    utf8Decode (b :: l) = (utf8Decode l).map (fun cs => b :: cs) :=
  utf8Decode_of_one (b :: l) b l (utf8DecodeOne_ascii b l hb)

theorem utf8DecodeOne_head (b : Nat) (l : List Nat) (x : Nat × List Nat)
    (h : utf8DecodeOne (b :: l) = some x) : b < 0x80 ∨ 0xC2 ≤ b := by
  rcases Nat.lt_or_ge b 0x80 with hb | hb
  · exact Or.inl hb
  · rcases Nat.lt_or_ge b 0xC2 with hb2 | hb2
    · have hnone : utf8DecodeOne (b :: l) = none := by
        simp only [utf8DecodeOne]
        rw [if_neg (by omega), if_pos hb2]
      rw [hnone] at h
      exact absurd h (by simp)
    · exact Or.inr hb2

theorem isCont_false_of (b : Nat) (h : b < 0x80 ∨ 0xC0 ≤ b) : isCont b = false := by
  rcases h with h | h
  · have hd : decide (0x80 ≤ b) = false := decide_eq_false (by omega)
    simp [isCont, hd]
  · have hd : decide (b < 0xC0) = false := decide_eq_false (by omega)
    simp [isCont, hd]

theorem utf8Decode_head_not_cont (b : Nat) (l cs : List Nat)
    (h : utf8Decode (b :: l) = some cs) : isCont b = false := by
  cases hone : utf8DecodeOne (b :: l) with
  | none => rw [utf8Decode_of_none b l hone] at h; exact absurd h (by simp)
  | some x =>
    rcases utf8DecodeOne_head b l x hone with hb | hb
    · exact isCont_false_of b (Or.inl hb)
    · exact isCont_false_of b (Or.inr (by omega))

theorem utf8Decode_cons_ne_nil (b : Nat) (l cs : List Nat)
    (h : utf8Decode (b :: l) = some cs) : cs ≠ [] := by
  cases hone : utf8DecodeOne (b :: l) with
  | none => rw [utf8Decode_of_none b l hone] at h; exact absurd h (by simp)
  | some x =>
    rw [utf8Decode_of_one (b :: l) x.1 x.2 (by rw [hone])] at h
    rw [Option.map_eq_some'] at h
    obtain ⟨ws, hws, rfl⟩ := h
    simp

theorem hashLoopCounted_spec (digest : List Nat → List Nat) (password : List Nat) :
    ∀ (n : Nat) (h : List Nat) (k : Nat),
      hashLoopCounted digest password n (h, k) =
        (hashLoop digest password n h, k + n) := by
  intro n
  induction n with
  | zero => intro h k; rfl
  | succ n ih =>
    intro h k
    simp only [hashLoopCounted, hashLoop, ih, Prod.mk.injEq]
    exact ⟨by trivial, by omega⟩

theorem check_hash_counted_fst (digest : List Nat → List Nat)
    (salted_hash password : List Nat) :
    (check_hash_counted digest salted_hash password).1 =
      check_hash digest salted_hash password := by
  simp only [check_hash_counted, check_hash]
  split
  · rfl
  · split
    · rfl
    · rfl
    · split
      · rfl
      · simp only [hashLoopCounted_spec]
        split <;> rfl

theorem check_hash_counted_count (digest : List Nat → List Nat)
    (s password : List Nat) (p : PhpbbHash) (d : List Nat)
    (hp : parse_hash s = .ok p) (hd : decode64 p.hashed = .ok d)
    (hpw : password.length ≤ 4096) :
    (check_hash_counted digest s password).2 = 1 + p.rounds := by
  simp only [check_hash_counted, hp, hd]
  rw [if_neg (by omega)]
  simp only [hashLoopCounted_spec]
  split <;> rfl

theorem check_hash_counted_decode_err (digest : List Nat → List Nat)
    (s password : List Nat) (p : PhpbbHash) (e : DecodeError)
    (hp : parse_hash s = .ok p) (hd : decode64 p.hashed = .error e)
    (hpw : password.length ≤ 4096) :
    (check_hash_counted digest s password).2 = 0 := by
  simp only [check_hash_counted, hp, hd]
  rw [if_neg (by omega)]

theorem hashLoop_eq_iterate (digest : List Nat → List Nat) (password : List Nat) :
    ∀ (n : Nat) (h : List Nat),
      hashLoop digest password n h =
        Nat.iterate (fun x => digest (x ++ password)) n h := by
  intro n
  induction n with
  | zero => intro h; rfl
  | succ n ih =>
    intro h
    rw [hashLoop, ih, Function.iterate_succ_apply]

theorem parse_hash_ok (s : List Nat) (p : PhpbbHash) (h : parse_hash s = .ok p) :
    s.length = 34 ∧
      ∃ c off, fourthChar s = some c ∧ alphaIndex c = some off ∧
        7 ≤ off ∧ off ≤ 30 ∧
        p = { hash_type := strSlice s 0 3, rounds := 2 ^ off,
              salt := strSlice s 4 12, hashed := strSlice s 12 s.length } := by
  simp only [parse_hash] at h
  split at h
  · exact ParseResult.noConfusion h
  rename_i hlen
  split at h
  · exact ParseResult.noConfusion h
  split at h
  · exact ParseResult.noConfusion h
  split at h
  · exact ParseResult.noConfusion h
  rename_i c hc
  split at h
  · exact ParseResult.noConfusion h
  rename_i off hoff
  split at h
  · exact ParseResult.noConfusion h
  rename_i hrange
  split at h
  · exact ParseResult.noConfusion h
  refine ⟨by omega, c, off, hc, hoff, ?_, ?_, ?_⟩
  · simp only [Bool.or_eq_true, decide_eq_true_eq, not_or] at hrange
    omega
  · simp only [Bool.or_eq_true, decide_eq_true_eq, not_or] at hrange
    omega
  · exact (ParseResult.ok.inj h).symm

/-! ## Claim theorems -/

/-- C3 (confirmed): for every password longer than 4096 bytes, `check_hash`
returns `PasswordTooLong` for every hash string (even structurally invalid
or panic-inducing ones) and every digest primitive, and performs zero
digest invocations — the guard runs before any parsing, decoding, or
hashing work. -/
theorem c3_password_too_long (digest : List Nat → List Nat)
    (salted_hash password : List Nat) (h : password.length > 4096) :
    check_hash digest salted_hash password = .ret .PasswordTooLong ∧
      (check_hash_counted digest salted_hash password).2 = 0 := by
  constructor
  · simp only [check_hash, if_pos h]
  · simp only [check_hash_counted, if_pos h]

/-- Witness for C3 at a concrete input: a 4097-byte password is rejected as
too long even alongside the panic-inducing hash string `hashPanic`. -/
theorem c3_password_too_long_witness :
    (List.replicate 4097 0).length > 4096 ∧
      check_hash digest0 hashPanic (List.replicate 4097 0) =
        .ret .PasswordTooLong :=
  ⟨by rw [List.length_replicate]; omega, (c3_password_too_long digest0 hashPanic
    (List.replicate 4097 0) (by rw [List.length_replicate]; omega)).1⟩

/-- C5 (confirmed): every input whose byte length is not 34 parses to
`Err(BadLength)` and (for passwords within the cap) `check_hash` returns
`InvalidHash(BadLength)`; no input of length exactly 34 takes the
`BadLength` branch. -/
theorem c5_bad_length (s password : List Nat) (digest : List Nat → List Nat) :
    (s.length ≠ 34 → parse_hash s = .err .BadLength ∧
      (password.length ≤ 4096 →
        check_hash digest s password = .ret (.InvalidHash .BadLength))) ∧
    (s.length = 34 → parse_hash s ≠ .err .BadLength) := by
  constructor
  · intro hlen
    have hp : parse_hash s = .err .BadLength := by
      simp only [parse_hash, if_pos hlen]
    refine ⟨hp, fun hpw => ?_⟩
    simp only [check_hash, hp]
    rw [if_neg (by omega)]
  · intro hlen hbad
    simp only [parse_hash] at hbad
    rw [if_neg (by omega)] at hbad
    repeat' split at hbad
    all_goals simp_all

/-- Witness for C5 at a concrete input: the empty string has length 0 ≠ 34
and is rejected as `BadLength` by `parse_hash` and `check_hash`. -/
theorem c5_bad_length_witness :
    parse_hash [] = .err .BadLength ∧
      check_hash digest0 [] [] = .ret (.InvalidHash .BadLength) := by
  obtain ⟨h1, h2⟩ := (c5_bad_length [] [] digest0).1 (by decide)
  exact ⟨h1, h2 (by decide)⟩

/-- C7 (code bug): the claim says `check_hash` never aborts with an
uncatchable fault on any UTF-8 input, but on the valid 34-byte UTF-8
string `"$H\u{e9}" ++ 30 × 'a'` the byte-slice `&salted_hash[0..3]` inside
`parse_hash` panics, because byte index 3 falls inside the two-byte
character `'\u{e9}'`: the code reaches the `panicked` outcome instead of
returning a `CheckHashResult` value. -/
theorem c7_panic_on_non_ascii :
    validUtf8 hashPanic = true ∧ hashPanic.length = 34 ∧
      parse_hash hashPanic = .panicked ∧
      check_hash digest0 hashPanic [] = .panicked :=
  ⟨by decide, by decide, by decide, by decide⟩

/-- Counterexample for C2 at the concrete input `[]`: the empty byte
sequence has length a multiple of 3, the code pads it with three `'.'`
characters and decodes them to two zero bytes, while the claimed
"no padding" procedure decodes the empty string to no bytes at all. -/
theorem c2_counterexample :
    decode64 [] = .ok [0, 0] ∧ decode64_claimed [] = .ok [] ∧
      decode64 [] ≠ decode64_claimed [] := ⟨by decide, by decide, by decide⟩

/-- C2 (corrected): for every input byte sequence the decoder reverses the
field, prepends `3 - len % 3` filler characters `'.'` (three fillers, not
zero, when the length is already a multiple of 3), decodes under the
custom alphabet, discards the padding-derived leading bytes keeping only
the final 16 bytes of the decoded output, and un-reverses them. -/
theorem c2_decode64_eq_spec (val : List Nat) : decode64 val = decode64_spec val := by
  simp only [decode64, decode64_spec]
  cases hb : b64decode (List.replicate (3 - val.length % 3) 46 ++ val.reverse) with
  | error e => rfl
  | ok d =>
    simp only [Except.map]
    congr 1
    exact List.take_reverse

/-- C10 (confirmed): every 22-byte input drawn from the custom alphabet
decodes successfully to exactly 16 bytes, and every successfully parsed
hash has a 22-byte digest field — so the final comparison in `check_hash`
is between two 16-byte sequences (the digest primitive's output being 16
bytes by contract). -/
theorem c10_decode64_sixteen_bytes :
    (∀ val : List Nat, val.length = 22 → (∀ c ∈ val, (alphaIndex c).isSome) →
      ∃ d, decode64 val = .ok d ∧ d.length = 16) ∧
    (∀ (s : List Nat) (p : PhpbbHash), parse_hash s = .ok p →
      p.hashed.length = 22) := by
  constructor
  · intro val hlen hall
    have hall2 : ∀ c ∈ List.replicate (3 - val.length % 3) 46 ++ val.reverse,
        (alphaIndex c).isSome := by
      intro c hc
      rcases List.mem_append.1 hc with hc | hc
      · have hc46 : c = 46 := List.eq_of_mem_replicate hc
        subst hc46
        decide
      · exact hall c (List.mem_reverse.1 hc)
    obtain ⟨vs, hvs⟩ := sixbits_ok _ hall2
    have hvslen : vs.length = 24 := by
      rw [sixbits_length _ _ hvs, List.length_append, List.length_replicate,
        List.length_reverse, hlen]
    obtain ⟨D, hD, hDlen⟩ := b64regroup_groups 6 vs (by omega)
    have hb : b64decode (List.replicate (3 - val.length % 3) 46 ++ val.reverse) =
        .ok D := by
      simp only [b64decode, hvs, hD]
    refine ⟨D.reverse.take 16, ?_, ?_⟩
    · simp only [decode64, hb, Except.map]
    · rw [List.length_take, List.length_reverse]
      omega
  · intro s p h
    obtain ⟨hlen, c, off, _, _, _, _, hp⟩ := parse_hash_ok s p h
    subst hp
    simp only [strSlice, List.length_take, List.length_drop]
    omega

/-- Witness for C10 at a concrete input: the 22-dot digest field decodes to
a 16-byte output. -/
theorem c10_decode64_sixteen_bytes_witness :
    ∃ d, decode64 (List.replicate 22 46) = .ok d ∧ d.length = 16 :=
  c10_decode64_sixteen_bytes.1 (List.replicate 22 46) (by decide) (by decide)

theorem parse_hash_prefix_setup (s : List Nat) (hlen : s.length = 34)
    (htag : strSlice s 0 3 = hTag) (hval : validUtf8 s = true) :
    ∃ ch, fourthChar s = some ch ∧
      parse_hash s =
        (match alphaIndex ch with
         | none => ParseResult.err .InvalidRounds
         | some offset =>
           if offset < 7 || offset > 30 then .err .InvalidRounds
           else if !(isCharBoundary s 4 && isCharBoundary s 12) then .panicked
           else .ok { hash_type := strSlice s 0 3, rounds := 2 ^ offset,
                      salt := strSlice s 4 12, hashed := strSlice s 12 s.length }) := by
  rcases s with _ | ⟨a, _ | ⟨b, _ | ⟨c, rest⟩⟩⟩ <;>
    simp only [List.length_cons, List.length_nil] at hlen <;> try omega
  have habc : a = 36 ∧ b = 72 ∧ c = 36 := by
    have ht := htag
    simp only [strSlice, List.drop_zero, hTag, List.take_succ_cons, List.take_zero,
      List.cons.injEq, and_true] at ht
    exact ht
  obtain ⟨rfl, rfl, rfl⟩ := habc
  rcases rest with _ | ⟨b3, r3⟩
  · simp at hlen
  have hval2 := hval
  simp only [validUtf8] at hval2
  rw [utf8Decode_cons_ascii 36 _ (by omega), utf8Decode_cons_ascii 72 _ (by omega),
    utf8Decode_cons_ascii 36 _ (by omega)] at hval2
  cases hsub : utf8Decode (b3 :: r3) with
  | none => rw [hsub] at hval2; simp at hval2
  | some cs1 =>
    have hcs1 : cs1 ≠ [] := utf8Decode_cons_ne_nil b3 r3 cs1 hsub
    rcases cs1 with _ | ⟨ch, cs2⟩
    · exact absurd rfl hcs1
    have hfc : fourthChar (36 :: 72 :: 36 :: b3 :: r3) = some ch := by
      simp only [fourthChar]
      rw [utf8Decode_cons_ascii 36 _ (by omega), utf8Decode_cons_ascii 72 _ (by omega),
        utf8Decode_cons_ascii 36 _ (by omega), hsub]
      rfl
    refine ⟨ch, hfc, ?_⟩
    have hb3 : isCont b3 = false := utf8Decode_head_not_cont b3 r3 _ hsub
    have hcb3 : isCharBoundary (36 :: 72 :: 36 :: b3 :: r3) 3 = true := by
      simp [isCharBoundary, hb3]
    have hcb0 : isCharBoundary (36 :: 72 :: 36 :: b3 :: r3) 0 = true := rfl
    simp only [parse_hash]
    rw [if_neg (by simp only [List.length_cons] at hlen ⊢; omega)]
    rw [hcb0, hcb3]
    rw [if_neg (by decide : ¬((!(true && true)) = true))]
    rw [if_neg (by simp [htag])]
    rw [hfc]

/-- C4 (confirmed): for a 34-byte input with the `"$H$"` tag (and valid
UTF-8, as every Rust `&str` is), `parse_hash` looks up character 3 by its
position in the 64-character alphabet; when the character is absent or its
offset lies outside `[7, 30]` parsing fails with `InvalidRounds`, and any
successful parse carries `rounds = 2 ^ offset` with the offset inside
`[7, 30]` — a power of two between `2^7` and `2^30`. -/
theorem c4_rounds (s : List Nat) (hlen : s.length = 34)
    (htag : strSlice s 0 3 = hTag) (hval : validUtf8 s = true) :
    (∀ ch, fourthChar s = some ch →
      (alphaIndex ch = none ∨ (∃ off, alphaIndex ch = some off ∧ (off < 7 ∨ off > 30))) →
      parse_hash s = .err .InvalidRounds) ∧
    (∀ p, parse_hash s = .ok p →
      ∃ ch off, fourthChar s = some ch ∧ alphaIndex ch = some off ∧
        7 ≤ off ∧ off ≤ 30 ∧ p.rounds = 2 ^ off) := by
  obtain ⟨ch0, hch0, heq⟩ := parse_hash_prefix_setup s hlen htag hval
  constructor
  · intro ch hch hbad
    have hcc : ch0 = ch := Option.some.inj (hch0.symm.trans hch)
    subst hcc
    rw [heq]
    rcases hbad with hnone | ⟨off, hoff, hout⟩
    · simp only [hnone]
    · simp only [hoff]
      rw [if_pos (by simp only [Bool.or_eq_true, decide_eq_true_eq]; omega)]
  · intro p hp
    obtain ⟨_, c, off, hc, hoff, h7, h30, hpe⟩ := parse_hash_ok s p hp
    exact ⟨c, off, hc, hoff, h7, h30, by rw [hpe]⟩

/-- Witness for C4 at a concrete input: `hashOk` parses successfully, its
fourth character `'5'` sits at alphabet offset 7, and the parsed rounds
value is `2 ^ 7 = 128`. -/
theorem c4_rounds_witness :
    ∃ ch off, fourthChar hashOk = some ch ∧ alphaIndex ch = some off ∧
      7 ≤ off ∧ off ≤ 30 ∧ parsedOk.rounds = 2 ^ off :=
  (c4_rounds hashOk (by decide) (by decide) (by decide)).2 parsedOk (by decide)

/-- Counterexample for C6 at a concrete input: `hashPanic` is a 34-byte
valid-UTF-8 string whose first three characters `'$' 'H' '\u{e9}'` are not
`"$H$"`, yet `parse_hash` panics on the slice `&salted_hash[0..3]` (byte 3
is not a char boundary) instead of failing with `UnsupportedHashType`. -/
theorem c6_counterexample :
    hashPanic.length = 34 ∧
      utf8Decode hashPanic = some (36 :: 72 :: 233 :: List.replicate 30 97) ∧
      (36 :: 72 :: 233 :: List.replicate 30 97).take 3 ≠ hTag ∧
      parse_hash hashPanic = .panicked ∧
      parse_hash hashPanic ≠ .err .UnsupportedHashType :=
  ⟨by decide, by decide, by decide, by decide, by decide⟩

/-- C6 (corrected): for every 34-byte input on which the tag slice does not
panic — byte index 3 a char boundary, as always holds for ASCII input —
whose first three bytes are not the literal `"$H$"`, parsing fails with
`UnsupportedHashType`, and `check_hash` (for passwords within the 4096-byte
cap) returns `InvalidHash(UnsupportedHashType)`. -/
theorem c6_unsupported_hash_type (s password : List Nat)
    (digest : List Nat → List Nat) (hlen : s.length = 34)
    (hb3 : isCharBoundary s 3 = true) (htag : strSlice s 0 3 ≠ hTag) :
    parse_hash s = .err .UnsupportedHashType ∧
      (password.length ≤ 4096 →
        check_hash digest s password = .ret (.InvalidHash .UnsupportedHashType)) := by
  have hp : parse_hash s = .err .UnsupportedHashType := by
    simp only [parse_hash]
    rw [if_neg (by omega)]
    rw [show isCharBoundary s 0 = true from rfl, hb3]
    rw [if_neg (by decide : ¬((!(true && true)) = true))]
    rw [if_pos htag]
  refine ⟨hp, fun hpw => ?_⟩
  simp only [check_hash, hp]
  rw [if_neg (by omega)]

/-- Witness for C6 at a concrete input: the ASCII string `hashX` with tag
`"$X$"` is rejected as `UnsupportedHashType` by both functions. -/
theorem c6_unsupported_hash_type_witness :
    parse_hash hashX = .err .UnsupportedHashType ∧
      check_hash digest0 hashX [] = .ret (.InvalidHash .UnsupportedHashType) := by
  obtain ⟨h1, h2⟩ := c6_unsupported_hash_type hashX [] digest0 (by decide)
    (by decide) (by decide)
  exact ⟨h1, h2 (by decide)⟩

/-- C1 (confirmed): for every parsed hash, every successfully decoded
digest field, and every password within the 4096-byte cap, `check_hash`
returns `Valid` exactly when the digest chain — `hash₀ = digest(salt ++
password)` followed by `rounds` iterations of `hashᵢ₊₁ = digest(hashᵢ ++
password)` on the raw digest bytes — ends byte-for-byte equal to the
decoded digest field, and returns `Invalid` whenever it does not. -/
theorem c1_valid_iff_chain (digest : List Nat → List Nat)
    (s password : List Nat) (p : PhpbbHash) (d : List Nat)
    (hp : parse_hash s = .ok p) (hd : decode64 p.hashed = .ok d)
    (hpw : password.length ≤ 4096) :
    (check_hash digest s password = .ret .Valid ↔
      Nat.iterate (fun h => digest (h ++ password)) p.rounds
        (digest (p.salt ++ password)) = d) ∧
    (Nat.iterate (fun h => digest (h ++ password)) p.rounds
        (digest (p.salt ++ password)) ≠ d →
      check_hash digest s password = .ret .Invalid) := by
  have hch : check_hash digest s password =
      (if hashLoop digest password p.rounds (digest (p.salt ++ password)) = d
       then .ret .Valid else .ret .Invalid) := by
    simp only [check_hash, hp, hd]
    rw [if_neg (by omega)]
  rw [hashLoop_eq_iterate] at hch
  constructor
  · by_cases hit : Nat.iterate (fun h => digest (h ++ password)) p.rounds
        (digest (p.salt ++ password)) = d
    · simp [hch, hit]
    · simp [hch, hit]
  · intro hne
    rw [hch, if_neg hne]

/-- Witness for C1 at a concrete input: with the constant digest `digest0`,
the hash `hashOk` (whose field decodes to 16 zero bytes) and the empty
password, the 128-step chain is constantly 16 zero bytes, so `check_hash`
returns `Valid`. -/
theorem c1_valid_iff_chain_witness :
    check_hash digest0 hashOk [] = .ret .Valid :=
  (c1_valid_iff_chain digest0 hashOk [] parsedOk (List.replicate 16 0)
    (by decide) (by decide) (by decide)).1.mpr (by decide)

/-- Counterexample for C8 at a concrete input: on `hashMaxRounds` (rounds
offset 30) with the empty password, `check_hash` performs `2 ^ 30 + 1`
digest invocations — one initial salted digest plus `2 ^ 30` loop
iterations — exceeding the claimed bound of `2 ^ 30`. -/
theorem c8_counterexample :
    (check_hash_counted digest0 hashMaxRounds []).2 = 2 ^ 30 + 1 ∧
      ¬(check_hash_counted digest0 hashMaxRounds []).2 ≤ 2 ^ 30 := by
  have hp : parse_hash hashMaxRounds = .ok parsedMax := by decide
  have hd : decode64 parsedMax.hashed = .ok (List.replicate 16 0) := by decide
  have hcount := check_hash_counted_count digest0 hashMaxRounds [] parsedMax
    (List.replicate 16 0) hp hd (by decide)
  rw [hcount]
  constructor
  · rfl
  · simp only [parsedMax]
    omega

/-- C8 (corrected): for every successfully parsed hash and every password
within the cap, `check_hash` terminates (it is a total function) and the
number of digest-primitive invocations is at most `2 ^ 30 + 1`, not
`2 ^ 30`, bounded deterministically by the parsed rounds value
`rounds ≤ 2 ^ 30`: one initial salted digest plus `rounds` loop
iterations when the digest field decodes, and zero invocations when
decoding fails. -/
theorem c8_digest_count (digest : List Nat → List Nat)
    (s password : List Nat) (p : PhpbbHash)
    (hp : parse_hash s = .ok p) (hpw : password.length ≤ 4096) :
    p.rounds ≤ 2 ^ 30 ∧
      (check_hash_counted digest s password).2 ≤ 2 ^ 30 + 1 ∧
      (∀ d, decode64 p.hashed = .ok d →
        (check_hash_counted digest s password).2 = 1 + p.rounds) ∧
      (∀ e, decode64 p.hashed = .error e →
        (check_hash_counted digest s password).2 = 0) := by
  obtain ⟨_, c, off, _, _, _, h30, hpe⟩ := parse_hash_ok s p hp
  have hr : p.rounds = 2 ^ off := by rw [hpe]
  have hb : (2 : Nat) ^ off ≤ 2 ^ 30 := Nat.pow_le_pow_right (by omega) h30
  have hbound : (check_hash_counted digest s password).2 ≤ 2 ^ 30 + 1 := by
    cases hdec : decode64 p.hashed with
    | error e =>
      rw [check_hash_counted_decode_err digest s password p e hp hdec hpw]
      omega
    | ok d =>
      rw [check_hash_counted_count digest s password p d hp hdec hpw]
      omega
  refine ⟨by omega, hbound, ?_, ?_⟩
  · intro d hdec
    exact check_hash_counted_count digest s password p d hp hdec hpw
  · intro e hdec
    exact check_hash_counted_decode_err digest s password p e hp hdec hpw

/-- Witness for C8 at a concrete input: `hashOk` parses to 128 rounds, and
with the empty password `check_hash` performs exactly `1 + 128` digest
invocations (its field decodes), within the bound `2 ^ 30 + 1`. -/
theorem c8_digest_count_witness :
    parsedOk.rounds ≤ 2 ^ 30 ∧
      (check_hash_counted digest0 hashOk []).2 ≤ 2 ^ 30 + 1 ∧
      (check_hash_counted digest0 hashOk []).2 = 1 + parsedOk.rounds := by
  obtain ⟨h1, h2, h3, _⟩ :=
    c8_digest_count digest0 hashOk [] parsedOk (by decide) (by decide)
  exact ⟨h1, h2, h3 (List.replicate 16 0) (by decide)⟩

/-- Counterexample for C9 at a concrete input: the 22-character field of
all `'z'` decodes successfully (to 16 bytes of `0xFF`), but re-encoding
those 16 bytes yields a field ending in `'1'`, not `'z'` — decoding
discards the high four bits of the final character's value, so fields
whose final character has alphabet value ≥ 4 do not round-trip. -/
theorem c9_counterexample :
    decode64 fieldZ = .ok (List.replicate 16 255) ∧
      encode64 (List.replicate 16 255) ≠ fieldZ :=
  ⟨by decide, by decide⟩

/-- C9 (corrected): a 22-character digest field that decodes successfully
round-trips through re-encoding exactly when its final character carries
only two payload bits — i.e. its alphabet value is below 4 (`'.'`, `'/'`,
`'0'` or `'1'`), as is the case for every field produced by the original
encoder, which packs 16 bytes = 128 bits little-endian into 21 full
characters plus 2 bits. -/
theorem c9_roundtrip (field d : List Nat) (hlen : field.length = 22)
    (hd : decode64 field = .ok d) (cl : Nat) (hcl : field.getLast? = some cl)
    (hcl4 : cl ∈ ([46, 47, 48, 49] : List Nat)) :
    encode64 d = field := by
  have h2 : 3 - field.length % 3 = 2 := by rw [hlen]
  rcases hrev : field.reverse with _ | ⟨c0, rest1⟩
  · have hlr := congrArg List.length hrev
    simp [hlen] at hlr
  rcases rest1 with _ | ⟨c1, rev2⟩
  · have hlr := congrArg List.length hrev
    simp [hlen] at hlr
  have hr20 : rev2.length = 20 := by
    have hlr := congrArg List.length hrev
    simp only [List.length_reverse, List.length_cons, hlen] at hlr
    omega
  have hc0 : c0 = cl := by
    have hh : field.reverse.head? = some c0 := by rw [hrev]; rfl
    rw [List.head?_reverse, hcl] at hh
    exact (Option.some.inj hh).symm
  subst hc0
  simp only [decode64, h2] at hd
  rw [hrev] at hd
  have hP : (List.replicate 2 46 ++ (c0 :: c1 :: rev2) : List Nat) =
      46 :: 46 :: c0 :: c1 :: rev2 := rfl
  rw [hP] at hd
  cases hB : b64decode (46 :: 46 :: c0 :: c1 :: rev2) with
  | error e =>
    rw [hB] at hd
    exact absurd hd (by simp [Except.map])
  | ok D =>
  rw [hB] at hd
  simp only [Except.map] at hd
  have hdD : d = D.reverse.take 16 := (Except.ok.inj hd).symm
  simp only [b64decode] at hB
  cases hsix : sixbits (46 :: 46 :: c0 :: c1 :: rev2) with
  | none =>
    simp only [hsix] at hB
    exact Except.noConfusion hB
  | some vs =>
  simp only [hsix] at hB
  obtain ⟨w1, vs1, hw1, hs1, rfl⟩ := sixbits_cons _ _ _ hsix
  obtain ⟨w2, vs2, hw2, hs2, rfl⟩ := sixbits_cons _ _ _ hs1
  obtain ⟨v0, vs3, hv0, hs3, rfl⟩ := sixbits_cons _ _ _ hs2
  obtain ⟨v1, ws2, hv1, hs4, rfl⟩ := sixbits_cons _ _ _ hs3
  have hw1z : w1 = 0 := by
    rw [(by decide : alphaIndex 46 = some 0)] at hw1
    exact (Option.some.inj hw1).symm
  have hw2z : w2 = 0 := by
    rw [(by decide : alphaIndex 46 = some 0)] at hw2
    exact (Option.some.inj hw2).symm
  subst hw1z
  subst hw2z
  have hv04 : v0 < 4 := by
    fin_cases hcl4
    · rw [(by decide : alphaIndex 46 = some 0)] at hv0
      have := Option.some.inj hv0
      omega
    · rw [(by decide : alphaIndex 47 = some 1)] at hv0
      have := Option.some.inj hv0
      omega
    · rw [(by decide : alphaIndex 48 = some 2)] at hv0
      have := Option.some.inj hv0
      omega
    · rw [(by decide : alphaIndex 49 = some 3)] at hv0
      have := Option.some.inj hv0
      omega
  have hws2len : ws2.length = 20 := by
    have hvl := sixbits_length _ _ hsix
    simp only [List.length_cons, hr20] at hvl
    omega
  have hBsave := hB
  obtain ⟨D2, hD2, hD2len⟩ :=
    b64regroup_groups 6 (0 :: 0 :: v0 :: v1 :: ws2)
      (by simp only [List.length_cons, hws2len])
  have hDlen : D.length = 18 := by
    rw [hBsave] at hD2
    rw [← Except.ok.inj hD2] at hD2len
    omega
  simp only [b64regroup] at hB
  cases hrest : b64regroup ws2 with
  | error e =>
    simp only [hrest] at hB
    exact Except.noConfusion hB
  | ok Drest =>
  simp only [hrest] at hB
  have hDform : D = 0 :: 0 :: (v0 * 64 + v1) :: Drest := by
    rw [← Except.ok.inj hB]
    have e1 : 0 * 4 + 0 / 16 = 0 := by omega
    have e2 : 0 % 16 * 16 + v0 / 4 = 0 := by omega
    have e3 : v0 % 4 * 64 + v1 = v0 * 64 + v1 := by omega
    rw [e1, e2, e3]
  have hdrev : d.reverse = D.drop 2 := by
    rw [hdD, List.take_reverse, List.reverse_reverse]
    have he : D.length - 16 = 2 := by omega
    rw [he]
  have hd16 : d.length = 16 := by
    rw [hdD, List.length_take, List.length_reverse]
    omega
  have hp2 : (3 - d.length % 3) % 3 = 2 := by rw [hd16]
  simp only [encode64, hp2]
  rw [hdrev]
  have hin : (List.replicate 2 0 ++ D.drop 2 : List Nat) = D := by
    rw [hDform]
    rfl
  rw [hin]
  have henc : b64encode3 D = 0 :: 0 :: v0 :: v1 :: ws2 := by
    refine b64encode3_regroup 6 _ D ?_ ?_ hBsave
    · simp only [List.length_cons, hws2len]
    · exact sixbits_lt _ _ hsix
  rw [henc]
  show ((v0 :: v1 :: ws2).reverse).map alphaChar = field
  rw [List.map_reverse, sixbits_map_back _ _ hs2, ← hrev, List.reverse_reverse]

/-- Witness for C9 at a concrete input: the all-dots field (final character
`'.'`, alphabet value 0) decodes to 16 zero bytes and re-encodes to
itself. -/
theorem c9_roundtrip_witness :
    encode64 (List.replicate 16 0) = List.replicate 22 46 :=
  c9_roundtrip (List.replicate 22 46) (List.replicate 16 0) (by decide)
    (by decide) 46 (by decide) (by decide)

end PhpbbPwhash
